import Mathlib

/-!
Verification of `compatibility_matrices/bump.py`.

Text is modelled as `List Char`.  Python string operations are embedded as
executable Lean functions:

* `re.split` with a separator regex built from an anchor: for anchors made of
  regex-literal characters (which `isRegexLiteral` checks), `re.split` scans
  left to right for non-overlapping occurrences of the separator string; this
  is `splitOnL`, built from the leftmost-match finder `splitFirst` with an
  explicit fuel argument (`splitOnFuel`) so that the definition is structural
  and computable.
* `str.join` is `joinSep`; `"".join` is `concatAll`.
* `str.replace` (replace every non-overlapping occurrence, left to right)
  is `replaceAll`, that is, split followed by join.
* `in` (substring test) is `isSubstr`; line iteration over a file
  object (keeping the trailing newline of each line, final partial line
  kept without one) is `linesKeepNl`.

External processes are oracles: an `Except Nat` value holds either their
output (or file transformation) or their non-zero exit status.  A raised
`subprocess.CalledProcessError` is `BumpError.calledProcessError`; the
exception raised by `add_lines_above` is `BumpError.patternNotFound`.
-/

/-- A one-character list holding a line break, the string that the Python
source interpolates around anchors. -/
def nl : List Char := ['\n']

/-- Characters that are special in a Python regular expression.  The model
of `re.split` treats the anchor as a literal string, which is faithful
exactly when the anchor contains none of these characters. -/
def regexSpecials : List Char :=
  ['.', '^', '$', '*', '+', '?', '\\', '[', ']', '(', ')', '|', '\x7b', '\x7d']

/-- An anchor made only of regex-literal characters: `re.split` on it
behaves as splitting on the literal string. -/
def isRegexLiteral (p : List Char) : Bool :=
  p.all (fun c => !(regexSpecials.contains c))

/-- Leftmost occurrence finder: `splitFirst sep text = some (a, b)` when
`text = a ++ sep ++ b` and this is the leftmost occurrence of `sep`;
`none` when `sep` does not occur in `text` (for nonempty `sep`). -/
def splitFirst (sep : List Char) : List Char → Option (List Char × List Char)
  | [] => none
  | c :: cs =>
    if sep.isPrefixOf (c :: cs) then some ([], (c :: cs).drop sep.length)
    else
      match splitFirst sep cs with
      | none => none
      | some (a, b) => some (c :: a, b)

/-- Fuelled splitting on non-overlapping leftmost occurrences of `sep`.
Each found occurrence consumes at least one character, so fuel equal to
the length of the text is always enough. -/
def splitOnFuel (sep : List Char) : Nat → List Char → List (List Char)
  | 0, text => [text]
  | Nat.succ n, text =>
    match splitFirst sep text with
    | none => [text]
    | some (a, b) => a :: splitOnFuel sep n b

/-- `re.split` on the literal string `sep` (for nonempty `sep`):
the pieces of `text` between non-overlapping leftmost occurrences of
`sep`. -/
def splitOnL (sep text : List Char) : List (List Char) :=
  splitOnFuel sep text.length text

/-- `str.join`: interleave `sep` between the given pieces. -/
def joinSep (sep : List Char) : List (List Char) → List Char
  | [] => []
  | [p] => p
  | p :: q :: ps => p ++ sep ++ joinSep sep (q :: ps)

/-- The number of positions of `text` at which `sep` starts (overlapping
occurrences all counted, so this counts every occurrence of `sep` as a
substring when `sep` is nonempty). -/
def countOcc (sep : List Char) : List Char → Nat
  | [] => 0
  | c :: cs => (if sep.isPrefixOf (c :: cs) then 1 else 0) + countOcc sep cs

/-- `add_lines_above(file, pattern, lines)` from `bump.py` as a function
from file content to the new content: split the content on the regex
built as a line break, the anchor, a line break; if this does not yield
exactly two pieces, raise (`none`, and the file is left unwritten);
otherwise write the pieces joined by a line break, the inserted lines,
a line break, the anchor, a line break. -/
def add_lines_above ( pattern lines text : List Char) : Option (List Char) :=
  let split_text := splitOnL (nl ++ pattern ++ nl) text
  if split_text.length ≠ 2 then none
  else some (joinSep (nl ++ lines ++ nl ++ pattern ++ nl) split_text)

/-- Concatenation of pieces, the join with the empty string that the
build-file edits use to write their collected line list back. -/
def concatAll : List (List Char) → List Char
  | [] => []
  | l :: ls => l ++ concatAll ls

/-- Helper for `linesKeepNl`: the accumulator holds the current line,
reversed. -/
def linesKeepNlAux : List Char → List Char → List (List Char)
  | [], acc => if acc = [] then [] else [acc.reverse]
  | c :: cs, acc =>
    if c = '\n' then (acc.reverse ++ nl) :: linesKeepNlAux cs []
    else linesKeepNlAux cs (c :: acc)

/-- Iteration over the lines of a file object: each line keeps its
trailing line break; a final piece without one is kept as is; an empty
final piece is not yielded. -/
def linesKeepNl (text : List Char) : List (List Char) :=
  linesKeepNlAux text []

/-- The Python `in` test on strings: does the needle occur as a
contiguous substring of the haystack (always true for an empty
needle)? -/
def isSubstr (needle hay : List Char) : Bool :=
  match hay with
  | [] => needle.isPrefixOf []
  | c :: cs => needle.isPrefixOf (c :: cs) || isSubstr needle cs

/-- The versioned module name built from a level. -/
def module_name (level : List Char) : List Char :=
  ("framework_compatibility_matrix.".toList) ++ level ++ (".xml".toList)

/-- `Bump.device_module_name`. -/
def device_module_name : List Char :=
  ("framework_compatibility_matrix.device.xml".toList)

/-- A `SYSTEM_MATRIX_DEPS` list entry: four spaces, the quoted module
name, a comma and a line break. -/
def bpDepLine (name : List Char) : List Char :=
  ("    \"".toList) ++ name ++ ("\",\n".toList)

/-- A `product_variables` list entry: sixteen spaces, the quoted module
name, a comma and a line break. -/
def bpVarLine (name : List Char) : List Char :=
  ("                \"".toList) ++ name ++ ("\",\n".toList)

/-- The characters one source line contributes to the rewritten
`Android.bp`: an extra current-module deps entry is inserted before any
line holding the quoted device module entry, and a line holding the
sixteen-space quoted current module entry is replaced by the next-module
entry; every other line is kept as read. -/
def bpRewriteLine (device cur next line : List Char) : List Char :=
  (if isSubstr (bpDepLine device) line then bpDepLine cur else []) ++
  (if isSubstr (bpVarLine cur) line then bpVarLine next else line)

/-- The final line-rewriting phase of `Bump.edit_android_bp`: read the
file line by line, collect the rewritten lines, and write them back
joined with the empty string. -/
def edit_android_bp_rewrite (device cur next content : List Char) : List Char :=
  concatAll ((linesKeepNl content).map (bpRewriteLine device cur next))

/-- The block appended for a new `vintf_compatibility_matrix` module. -/
def bpModuleBlock (next : List Char) : List Char :=
  ("vintf_compatibility_matrix \x7b\n    name: \"".toList) ++ next ++
    ("\",\n\x7d\n".toList)

/-- The first phase of `Bump.edit_android_bp`: when the next module name
is absent from the file, seek to the end and append a line break and the
new module block; otherwise leave the file as is. -/
def edit_android_bp_append (next content : List Char) : List Char :=
  if isSubstr next content then content
  else content ++ nl ++ bpModuleBlock next

/-- An `Android.mk` dependency entry: four spaces, the module name, a
space, a backslash and a line break. -/
def mkDepLine (name : List Char) : List Char :=
  ("    ".toList) ++ name ++ (" \\\n".toList)

/-- The characters one source line contributes to the rewritten
`Android.mk`. -/
def mkRewriteLine (device cur next line : List Char) : List Char :=
  (if isSubstr (mkDepLine device) line then mkDepLine cur else []) ++
  (if isSubstr cur line then mkDepLine next else line)

/-- `Bump.edit_android_mk`: return early without writing (`none`) when
the next module name is already present; otherwise rewrite the file line
by line. -/
def edit_android_mk (device cur next content : List Char) : Option (List Char) :=
  if isSubstr next content then none
  else some (concatAll ((linesKeepNl content).map (mkRewriteLine device cur next)))

/-- `str.replace old new`: every non-overlapping occurrence of `old`,
scanned left to right, becomes `new`. -/
def replaceAll (old new s : List Char) : List Char :=
  joinSep new (splitOnL old s)

/-- The level attribute text built from a level. -/
def levelAttr (level : List Char) : List Char :=
  ("level=\"".toList) ++ level ++ ("\"".toList)

/-- `Bump.copy_matrix` as a function from the current matrix content to
the content written at the next matrix path: the current content with
every occurrence of the current level attribute replaced by the next
level attribute. -/
def copy_matrix (current_level next_level content : List Char) : List Char :=
  replaceAll (levelAttr current_level) (levelAttr next_level) content

/-- `str.upper` over the single-letter codes used here. -/
def toUpperL (s : List Char) : List Char := s.map Char.toUpper

/-- The three version-registry source files patched by
`Bump.bump_libvintf`. -/
structure RegistryFiles where
  analyze_matrix : List Char
  level_h : List Char
  runtime_info : List Char
deriving DecidableEq

/-- Failures a run can raise: a `CalledProcessError` carrying a non-zero
exit status, or the exception raised by `add_lines_above`. -/
inductive BumpError where
  | calledProcessError (code : Nat)
  | patternNotFound
deriving DecidableEq

/-- The `check_call` wrapper: log the command and invoke it; a non-zero
exit status raises `CalledProcessError` carrying that status verbatim. -/
def check_call (r : Except Nat Unit) : Except BumpError Unit :=
  match r with
  | .ok u => .ok u
  | .error n => .error (BumpError.calledProcessError n)

/-- The `check_output` wrapper: log the command and return its standard
output; a non-zero exit status raises `CalledProcessError`. -/
def check_output (r : Except Nat (List Char)) : Except BumpError (List Char) :=
  match r with
  | .ok out => .ok out
  | .error n => .error (BumpError.calledProcessError n)

/-- The anchor line in `analyze_matrix.cpp`. -/
def analyzeAnchor : List Char := ("        case Level::UNSPECIFIED:".toList)

/-- The case block inserted in `analyze_matrix.cpp` (the dedented
template, indented by eight spaces). -/
def analyzeBlock (letterU version : List Char) : List Char :=
  ("        case Level::".toList) ++ letterU ++
    (":\n            return \"Android ".toList) ++ version ++ (" (".toList) ++
    letterU ++ (")\";".toList)

/-- The first anchor line in `Level.h`. -/
def levelAnchor1 : List Char := ("    // To add new values:".toList)

/-- The enum value line inserted in `Level.h`. -/
def levelLine (letterU level : List Char) : List Char :=
  ("    ".toList) ++ letterU ++ (" = ".toList) ++ level ++ (",".toList)

/-- The second anchor line in `Level.h`. -/
def levelAnchor2 : List Char := ("        Level::UNSPECIFIED,".toList)

/-- The level list entry inserted in `Level.h`. -/
def levelEnumLine (letterU : List Char) : List Char :=
  ("        Level::".toList) ++ letterU ++ (",".toList)

/-- The anchor line in `RuntimeInfo.cpp`. -/
def runtimeAnchor : List Char :=
  ("            // Add more levels above this line.".toList)

/-- The case block inserted in `RuntimeInfo.cpp` (the dedented template,
indented by twelve spaces). -/
def runtimeBlock (letterU version : List Char) : List Char :=
  ("            case ".toList) ++ version ++
    (": \x7b\n                ret = Level::".toList) ++ letterU ++
    (";\n            \x7d break;".toList)

/-- The presence probe `grep -h "LETTER = level" Level.h` run through
`check_call`: exit 0 when some line of `Level.h` matches (the
interpolated letters and digits are regex-literal, so this is a substring
test), exit 1 otherwise. -/
def grepLevel (letterU level content : List Char) : Except Nat Unit :=
  if isSubstr (letterU ++ (" = ".toList) ++ level) content then .ok ()
  else .error 1

/-- `Bump.bump_libvintf`: skip (no read, no write) when no platform
version was supplied; otherwise probe `Level.h` for the current level
line, and only when the probe command fails (its `CalledProcessError` is
caught) insert the four blocks, in source order, the two `Level.h`
insertions applied in sequence.  The returned flag records whether the
step reported a skip. -/
def bump_libvintf (current_version : Option (List Char))
    (current_letter current_level : List Char) (files : RegistryFiles) :
    Except BumpError (RegistryFiles × Bool) :=
  match current_version with
  | none => .ok (files, true)
  | some version =>
    match check_call (grepLevel (toUpperL current_letter) current_level
        files.level_h) with
    | .ok _ => .ok (files, false)
    | .error _ =>
      match add_lines_above analyzeAnchor
          (analyzeBlock (toUpperL current_letter) version) files.analyze_matrix with
      | none => .error BumpError.patternNotFound
      | some am =>
        match add_lines_above levelAnchor1
            (levelLine (toUpperL current_letter) current_level) files.level_h with
        | none => .error BumpError.patternNotFound
        | some lh1 =>
          match add_lines_above levelAnchor2
              (levelEnumLine (toUpperL current_letter)) lh1 with
          | none => .error BumpError.patternNotFound
          | some lh2 =>
            match add_lines_above runtimeAnchor
                (runtimeBlock (toUpperL current_letter) version) files.runtime_info with
            | none => .error BumpError.patternNotFound
            | some ri => .ok (⟨am, lh2, ri⟩, false)

/-- The command-line arguments of the script. -/
structure Args where
  current_level : List Char
  next_level : List Char
  current_letter : List Char
  next_letter : List Char
  platform_version : Option (List Char)

/-- Outcomes of the opaque external collaborators of one run: the kernel
configs bump helper, the directory-scan pipeline (its standard output),
and the three `bpmodify` invocations, each modelled as either a
transformation of the `Android.bp` content it is run on, or a non-zero
exit status. -/
structure ExtEnv where
  bump_kernel_exit : Except Nat Unit
  kernel_configs_out : Except Nat (List Char)
  bpmodify_stem : Except Nat (List Char → List Char)
  bpmodify_srcs : Except Nat (List Char → List Char)
  bpmodify_kernel_configs : Except Nat (List Char → List Char)

/-- The files one run reads and writes. -/
structure FileState where
  current_xml : List Char
  next_xml : List Char
  android_bp : List Char
  android_mk : List Char
  analyze_matrix : List Char
  level_h : List Char
  runtime_info : List Char
deriving DecidableEq

/-- True for a successful `Except` result. -/
def isOkE {e a : Type} (r : Except e a) : Bool :=
  match r with
  | .ok _ => true
  | .error _ => false

/-- `Bump.run`: the five steps in order, each uncaught raise aborting the
whole run.  External processes come from `env`; no step is retried. -/
def run (args : Args) (env : ExtEnv) (fs : FileState) : Except BumpError FileState :=
  match check_call env.bump_kernel_exit with
  | .error e => .error e
  | .ok _ =>
    let fs1 := { fs with
      next_xml := copy_matrix args.current_level args.next_level fs.current_xml }
    let bp0 := edit_android_bp_append (module_name args.next_level) fs1.android_bp
    match check_output env.kernel_configs_out with
    | .error e => .error e
    | .ok _ =>
      match env.bpmodify_stem with
      | .error n => .error (BumpError.calledProcessError n)
      | .ok f1 =>
        match env.bpmodify_srcs with
        | .error n => .error (BumpError.calledProcessError n)
        | .ok f2 =>
          match env.bpmodify_kernel_configs with
          | .error n => .error (BumpError.calledProcessError n)
          | .ok f3 =>
            let bp := edit_android_bp_rewrite device_module_name
              (module_name args.current_level) (module_name args.next_level)
              (f3 (f2 (f1 bp0)))
            let fs2 := { fs1 with android_bp := bp }
            let fs3 :=
              match edit_android_mk device_module_name
                  (module_name args.current_level) (module_name args.next_level)
                  fs2.android_mk with
              | none => fs2
              | some mk => { fs2 with android_mk := mk }
            match bump_libvintf args.platform_version args.current_letter
                args.current_level
                ⟨fs3.analyze_matrix, fs3.level_h, fs3.runtime_info⟩ with
            | .error e => .error e
            | .ok (reg, _) =>
              .ok { fs3 with
                analyze_matrix := reg.analyze_matrix,
                level_h := reg.level_h,
                runtime_info := reg.runtime_info }

set_option maxRecDepth 4000

theorem countOcc_nil (sep : List Char) : countOcc sep [] = 0 := rfl

theorem countOcc_cons (sep : List Char) (c : Char) (cs : List Char) :
    countOcc sep (c :: cs) =
      (if sep.isPrefixOf (c :: cs) then 1 else 0) + countOcc sep cs := rfl

/-- `splitFirst` returns `none` exactly when the separator occurs nowhere. -/
theorem splitFirst_eq_none_iff (sep text : List Char) :
    splitFirst sep text = none ↔ countOcc sep text = 0 := by
  induction text with
  | nil => simp [splitFirst, countOcc]
  | cons c cs ih =>
    by_cases h : sep.isPrefixOf (c :: cs)
    · simp [splitFirst, countOcc, h]
    · simp only [splitFirst, countOcc, h, if_false, ite_false, Nat.zero_add]
      cases hs : splitFirst sep cs with
      | none => simpa [hs] using ih
      | some p => simp [hs, ← ih]

/-- A successful `splitFirst` is a decomposition of the text. -/
theorem splitFirst_eq_some (sep text a b : List Char)
    (h : splitFirst sep text = some (a, b)) : text = a ++ sep ++ b := by
  induction text generalizing a b with
  | nil => simp [splitFirst] at h
  | cons c cs ih =>
    by_cases hp : sep.isPrefixOf (c :: cs)
    · simp only [splitFirst, hp, if_true, Option.some.injEq, Prod.mk.injEq] at h
      obtain ⟨ha, hb⟩ := h
      obtain ⟨t, ht⟩ := List.isPrefixOf_iff_prefix.mp hp
      have hd : (c :: cs).drop sep.length = t := by
        rw [← ht]; exact List.drop_left sep t
      rw [← ha, ← hb, hd, List.nil_append]
      exact ht.symm
    · simp only [splitFirst, hp, if_false, ite_false] at h
      cases hs : splitFirst sep cs with
      | none => rw [hs] at h; simp at h
      | some p =>
        obtain ⟨a1, b1⟩ := p
        rw [hs] at h
        simp at h
        obtain ⟨ha, hb⟩ := h
        have hcs := ih a1 b1 hs
        rw [← ha, ← hb, List.cons_append, List.cons_append, ← hcs]

/-- Occurrence counting only shrinks when passing to a suffix. -/
theorem countOcc_suffix_le (sep s t : List Char) (h : s <:+ t) :
    countOcc sep s ≤ countOcc sep t := by
  induction t with
  | nil => rw [List.suffix_nil.mp h]
  | cons c cs ih =>
    rcases h with ⟨u, hu⟩
    cases u with
    | nil => simp at hu; subst hu; exact Nat.le_refl _
    | cons d ds =>
      have hs : s <:+ cs := by
        refine ⟨ds, ?_⟩
        simpa using congrArg List.tail hu
      calc countOcc sep s ≤ countOcc sep cs := ih hs
        _ ≤ countOcc sep (c :: cs) := by
            rw [countOcc_cons]; exact Nat.le_add_left _ _

/-- The text holds at least one more occurrence than the part after the
leftmost match. -/
theorem countOcc_ge_of_splitFirst (sep text a b : List Char)
    (hsep : sep ≠ []) (h : splitFirst sep text = some (a, b)) :
    1 + countOcc sep b ≤ countOcc sep text := by
  induction text generalizing a b with
  | nil => simp [splitFirst] at h
  | cons c cs ih =>
    by_cases hp : sep.isPrefixOf (c :: cs)
    · simp only [splitFirst, hp, if_true, Option.some.injEq, Prod.mk.injEq] at h
      obtain ⟨_, hb⟩ := h
      have hsuf : b <:+ cs := by
        rw [← hb]
        cases sep with
        | nil => exact absurd rfl hsep
        | cons e es =>
          simpa [List.length_cons] using List.drop_suffix es.length cs
      have := countOcc_suffix_le sep b cs hsuf
      rw [countOcc_cons, if_pos hp]
      omega
    · simp only [splitFirst, hp, if_false, ite_false] at h
      cases hs : splitFirst sep cs with
      | none => rw [hs] at h; simp at h
      | some p =>
        obtain ⟨a1, b1⟩ := p
        rw [hs] at h
        simp at h
        obtain ⟨_, hb⟩ := h
        have hih := ih a1 b1 hs
        rw [hb] at hih
        rw [countOcc_cons, if_neg hp]
        omega

/-- If the text decomposes around the separator, the separator occurs. -/
theorem countOcc_pos_of_decomp (sep a b : List Char) (hsep : sep ≠ []) :
    1 ≤ countOcc sep (a ++ sep ++ b) := by
  induction a with
  | nil =>
    cases sep with
    | nil => exact absurd rfl hsep
    | cons c cs =>
      rw [List.nil_append, List.cons_append, countOcc_cons]
      have : (c :: cs).isPrefixOf (c :: (cs ++ b)) = true := by
        refine List.isPrefixOf_iff_prefix.mpr ?_
        refine ⟨b, ?_⟩
        simp
      simp only [List.cons_append, this, if_true]
      omega
  | cons c a ih =>
    rw [List.cons_append, List.cons_append, countOcc_cons]
    split <;> omega

/-- When the separator does not occur, splitting returns the whole text,
whatever the fuel. -/
theorem splitOnFuel_of_none (sep text : List Char) (n : Nat)
    (h : splitFirst sep text = none) : splitOnFuel sep n text = [text] := by
  cases n with
  | zero => rfl
  | succ m => simp [splitOnFuel, h]

/-- Splitting always yields at least one piece. -/
theorem splitOnFuel_length_pos (sep text : List Char) (n : Nat) :
    1 ≤ (splitOnFuel sep n text).length := by
  cases n with
  | zero => simp [splitOnFuel]
  | succ m =>
    cases h : splitFirst sep text with
    | none => simp [splitOnFuel, h]
    | some p => obtain ⟨a, b⟩ := p; simp [splitOnFuel, h]

/-- The leftmost match of `splitFirst` starts no later than any given
occurrence, so the text after any given occurrence is a suffix of the
text after the match. -/
theorem splitFirst_leftmost_suffix (sep x y p q : List Char) (hsep : sep ≠ [])
    (h : splitFirst sep (x ++ sep ++ y) = some (p, q)) : y <:+ q := by
  induction x generalizing p q with
  | nil =>
    rw [List.nil_append] at h
    have hp : sep.isPrefixOf (sep ++ y) = true :=
      List.isPrefixOf_iff_prefix.mpr (List.prefix_append sep y)
    cases sep with
    | nil => exact absurd rfl hsep
    | cons s ss =>
      rw [List.cons_append] at h
      simp only [splitFirst, List.cons_append] at hp
      simp only [splitFirst, hp, if_true, Option.some.injEq, Prod.mk.injEq] at h
      obtain ⟨_, hq⟩ := h
      rw [← hq, ← List.cons_append, List.drop_left]
  | cons d x ih =>
    have hform : (d :: x) ++ sep ++ y = d :: (x ++ sep ++ y) := by simp
    rw [hform] at h
    by_cases hp : sep.isPrefixOf (d :: (x ++ sep ++ y))
    · simp only [splitFirst, hp, if_true, Option.some.injEq, Prod.mk.injEq] at h
      obtain ⟨_, hq⟩ := h
      have hy : ((d :: (x ++ sep ++ y)).drop sep.length).drop (d :: x).length = y := by
        rw [List.drop_drop]
        have h1 : d :: (x ++ sep ++ y) = ((d :: x) ++ sep) ++ y := by simp
        rw [h1, Nat.add_comm, ← List.length_append, List.drop_left]
      have hds := List.drop_suffix (d :: x).length ((d :: (x ++ sep ++ y)).drop sep.length)
      rw [hy] at hds
      rw [← hq]
      exact hds
    · simp only [splitFirst, hp, if_false, ite_false] at h
      cases hs : splitFirst sep (x ++ sep ++ y) with
      | none =>
        have h0 := (splitFirst_eq_none_iff sep (x ++ sep ++ y)).mp hs
        have h1 := countOcc_pos_of_decomp sep x y hsep
        omega
      | some r =>
        obtain ⟨a1, b1⟩ := r
        rw [hs] at h
        simp at h
        obtain ⟨_, hb⟩ := h
        rw [← hb]
        exact ih a1 b1 hs

/-- One occurrence forces at least two pieces. -/
theorem splitOnFuel_two_le (sep text a b : List Char) (n : Nat) (hsep : sep ≠ [])
    (hd : text = a ++ sep ++ b) (hn : text.length ≤ n) :
    2 ≤ (splitOnFuel sep n text).length := by
  have hslen : 1 ≤ sep.length := by
    cases sep with
    | nil => exact absurd rfl hsep
    | cons u us => simp
  cases n with
  | zero =>
    have hlt : text.length = 0 := Nat.le_zero.mp hn
    have hl := congrArg List.length hd
    rw [hlt] at hl
    simp only [List.length_append] at hl
    omega
  | succ m =>
    cases hs : splitFirst sep text with
    | none =>
      have h0 := (splitFirst_eq_none_iff sep text).mp hs
      rw [hd] at h0
      have h1 := countOcc_pos_of_decomp sep a b hsep
      omega
    | some r =>
      obtain ⟨p, q⟩ := r
      simp only [splitOnFuel, hs, List.length_cons]
      have := splitOnFuel_length_pos sep q m
      omega

/-- Two non-overlapping occurrences force at least three pieces. -/
theorem splitOnFuel_three_le (sep text a b c : List Char) (n : Nat) (hsep : sep ≠ [])
    (hd : text = a ++ sep ++ b ++ sep ++ c) (hn : text.length ≤ n) :
    3 ≤ (splitOnFuel sep n text).length := by
  have hslen : 1 ≤ sep.length := by
    cases sep with
    | nil => exact absurd rfl hsep
    | cons u us => simp
  have hd2 : text = a ++ sep ++ (b ++ sep ++ c) := by
    rw [hd]; simp [List.append_assoc]
  cases n with
  | zero =>
    have hlt : text.length = 0 := Nat.le_zero.mp hn
    have hl := congrArg List.length hd
    rw [hlt] at hl
    simp only [List.length_append] at hl
    omega
  | succ m =>
    cases hs : splitFirst sep text with
    | none =>
      have h0 := (splitFirst_eq_none_iff sep text).mp hs
      rw [hd2] at h0
      have h1 := countOcc_pos_of_decomp sep a (b ++ sep ++ c) hsep
      omega
    | some r =>
      obtain ⟨p, q⟩ := r
      simp only [splitOnFuel, hs, List.length_cons]
      rw [hd2] at hs
      have hsuf : (b ++ sep ++ c) <:+ q :=
        splitFirst_leftmost_suffix sep a (b ++ sep ++ c) p q hsep hs
      obtain ⟨r1, hr1⟩ := hsuf
      have hdq : q = (r1 ++ b) ++ sep ++ c := by
        rw [← hr1]; simp [List.append_assoc]
      have hqlen : q.length ≤ m := by
        have hdec := splitFirst_eq_some sep (a ++ sep ++ (b ++ sep ++ c)) p q hs
        have hl1 := congrArg List.length hdec
        have hl2 := congrArg List.length hd
        simp only [List.length_append] at hl1 hl2
        omega
      have := splitOnFuel_two_le sep q (r1 ++ b) c m hsep hdq hqlen
      omega

/-- Shared helper: when the anchor never occurs delimited by line breaks,
`add_lines_above` raises and performs no write. -/
theorem add_lines_above_none_of_no_interior (pat lns text : List Char)
    (h0 : countOcc (nl ++ pat ++ nl) text = 0) :
    add_lines_above pat lns text = none := by
  have hn := (splitFirst_eq_none_iff (nl ++ pat ++ nl) text).mpr h0
  have hone : splitOnL (nl ++ pat ++ nl) text = [text] := by
    unfold splitOnL
    exact splitOnFuel_of_none _ text _ hn
  simp only [add_lines_above]
  rw [hone]
  simp

/-- C1: for a file whose content holds exactly one occurrence of the anchor
delimited by line breaks on both sides, `add_lines_above` rewrites the file
to the original content with the block inserted on its own lines directly
above the anchor line, the anchor line and everything else unchanged. -/
theorem add_lines_above_unique_anchor (pat lns text : List Char)
    (hre : isRegexLiteral pat = true)
    (h : countOcc (nl ++ pat ++ nl) text = 1) :
    ∃ a b, text = a ++ (nl ++ pat ++ nl) ++ b ∧
      add_lines_above pat lns text =
        some (a ++ (nl ++ lns ++ nl ++ pat ++ nl) ++ b) := by
  have hsep : (nl ++ pat ++ nl) ≠ [] := by simp [nl]
  cases hs : splitFirst (nl ++ pat ++ nl) text with
  | none =>
    have h0 := (splitFirst_eq_none_iff (nl ++ pat ++ nl) text).mp hs
    rw [h0] at h
    exact absurd h (by decide)
  | some r =>
    obtain ⟨a, b⟩ := r
    have hdec := splitFirst_eq_some (nl ++ pat ++ nl) text a b hs
    have hge := countOcc_ge_of_splitFirst (nl ++ pat ++ nl) text a b hsep hs
    have hb0 : countOcc (nl ++ pat ++ nl) b = 0 := by omega
    have hbn : splitFirst (nl ++ pat ++ nl) b = none :=
      (splitFirst_eq_none_iff (nl ++ pat ++ nl) b).mpr hb0
    have hsplit : splitOnL (nl ++ pat ++ nl) text = [a, b] := by
      unfold splitOnL
      cases htext : text with
      | nil =>
        rw [htext] at h
        simp [countOcc] at h
      | cons c cs =>
        rw [htext] at hs
        simp only [List.length_cons, splitOnFuel, hs]
        rw [splitOnFuel_of_none (nl ++ pat ++ nl) b cs.length hbn]
    refine ⟨a, b, hdec, ?_⟩
    simp only [add_lines_above]
    rw [hsplit]
    simp [joinSep]

/-- Witness for C1 on a concrete file with a single interior anchor line. -/
theorem add_lines_above_unique_anchor_witness :
    ∃ a b, ("a\nX\nb".toList) = a ++ (nl ++ ("X".toList) ++ nl) ++ b ∧
      add_lines_above ("X".toList) ("Y".toList) ("a\nX\nb".toList) =
        some (a ++ (nl ++ ("Y".toList) ++ nl ++ ("X".toList) ++ nl) ++ b) :=
  add_lines_above_unique_anchor ("X".toList) ("Y".toList) ("a\nX\nb".toList)
    (by decide) (by decide)

/-- C2, counterexample: this file holds the anchor line twice (two adjacent
anchor lines), yet `add_lines_above` does not fail: the two occurrences of
the delimited anchor overlap on the shared line break, the non-overlapping
scan of the split finds only the first, and the file is rewritten. -/
theorem add_lines_above_adjacent_anchors_cex :
    add_lines_above ("X".toList) ("NEW".toList) ("a\nX\nX\nb".toList) =
      some ("a\nNEW\nX\nX\nb".toList) ∧
    add_lines_above ("X".toList) ("NEW".toList) ("a\nX\nX\nb".toList) ≠ none := by
  constructor
  · decide
  · decide

/-- C2 as amended: `add_lines_above` fails and performs no write when the
anchor, delimited by line breaks, occurs zero times, or occurs two or more
times at non-overlapping positions (in particular whenever two anchor lines
are not adjacent). -/
theorem add_lines_above_zero_or_disjoint (pat lns text : List Char)
    (hre : isRegexLiteral pat = true)
    (h : countOcc (nl ++ pat ++ nl) text = 0 ∨
      ∃ a b c, text = a ++ (nl ++ pat ++ nl) ++ b ++ (nl ++ pat ++ nl) ++ c) :
    add_lines_above pat lns text = none := by
  have hsep : (nl ++ pat ++ nl) ≠ [] := by simp [nl]
  cases h with
  | inl h0 => exact add_lines_above_none_of_no_interior pat lns text h0
  | inr h2 =>
    obtain ⟨a, b, c, hd⟩ := h2
    have h3 : 3 ≤ (splitOnL (nl ++ pat ++ nl) text).length := by
      unfold splitOnL
      exact splitOnFuel_three_le (nl ++ pat ++ nl) text a b c text.length hsep hd
        (Nat.le_refl _)
    have hne : (splitOnL (nl ++ pat ++ nl) text).length ≠ 2 := by omega
    simp only [add_lines_above]
    rw [if_pos hne]

/-- Witness for amended C2 on a file with two separated anchor lines. -/
theorem add_lines_above_zero_or_disjoint_witness :
    add_lines_above ("X".toList) ("L".toList) ("q\nX\nw\nX\ne".toList) = none :=
  add_lines_above_zero_or_disjoint ("X".toList) ("L".toList) ("q\nX\nw\nX\ne".toList)
    (by decide)
    (Or.inr ⟨("q".toList), ("w".toList), ("e".toList), by decide⟩)

/-- C9: the anchor is only matched with a line break on both sides, so a
file whose only anchor line is the very first line, or the final line
without a trailing line break, makes `add_lines_above` raise and leave the
content unwritten. -/
theorem add_lines_above_boundary_anchor (pat lns text rest : List Char)
    (hre : isRegexLiteral pat = true)
    (hpos : text = pat ++ nl ++ rest ∨ text = rest ++ nl ++ pat)
    (h0 : countOcc (nl ++ pat ++ nl) text = 0) :
    add_lines_above pat lns text = none :=
  add_lines_above_none_of_no_interior pat lns text h0

/-- Witness for C9: the anchor is the first line of the file. -/
theorem add_lines_above_boundary_anchor_witness :
    add_lines_above ("X".toList) ("L".toList) ("X\nb".toList) = none :=
  add_lines_above_boundary_anchor ("X".toList) ("L".toList) ("X\nb".toList)
    ("b".toList) (by decide) (Or.inl (by decide)) (by decide)

theorem concatAll_linesKeepNlAux (text acc : List Char) :
    concatAll (linesKeepNlAux text acc) = acc.reverse ++ text := by
  induction text generalizing acc with
  | nil =>
    by_cases h : acc = []
    · simp [linesKeepNlAux, h, concatAll]
    · simp [linesKeepNlAux, h, concatAll]
  | cons c cs ih =>
    by_cases h : c = '\n'
    · simp only [linesKeepNlAux, h, if_true, concatAll, ih, List.reverse_nil,
        List.nil_append]
      simp [nl]
    · simp only [linesKeepNlAux, h, ite_false, ih, List.reverse_cons]
      simp

/-- Reading the lines of a file and joining them back gives the file. -/
theorem concatAll_linesKeepNl (text : List Char) :
    concatAll (linesKeepNl text) = text :=
  concatAll_linesKeepNlAux text []

theorem map_self_of_mem (ls : List (List Char)) (f : List Char → List Char)
    (h : ∀ x ∈ ls, f x = x) : ls.map f = ls := by
  induction ls with
  | nil => rfl
  | cons l ls ih =>
    simp only [List.map_cons, h l (by simp)]
    rw [ih (fun x hx => h x (by simp [hx]))]

theorem map_congr_of_mem (ls : List (List Char)) (f g : List Char → List Char)
    (h : ∀ x ∈ ls, f x = g x) : ls.map f = ls.map g := by
  induction ls with
  | nil => rfl
  | cons l ls ih =>
    simp only [List.map_cons, h l (by simp)]
    rw [ih (fun x hx => h x (by simp [hx]))]

/-- C3, counterexample: an `Android.bp` content that already holds the next
module identifier (here in its `product_variables` entry) together with the
device-module deps entry.  Re-running the line-rewriting phase of
`edit_android_bp` is not a no-op: it inserts one more current-module deps
entry above the device-module line. -/
theorem edit_android_bp_rewrite_not_idempotent_cex :
    isSubstr (module_name ("202504".toList))
        (bpDepLine device_module_name ++ bpVarLine (module_name ("202504".toList))) =
      true ∧
    edit_android_bp_rewrite device_module_name (module_name ("202404".toList))
        (module_name ("202504".toList))
        (bpDepLine device_module_name ++ bpVarLine (module_name ("202504".toList))) =
      bpDepLine (module_name ("202404".toList)) ++
        (bpDepLine device_module_name ++ bpVarLine (module_name ("202504".toList))) ∧
    bpDepLine (module_name ("202404".toList)) ++
        (bpDepLine device_module_name ++ bpVarLine (module_name ("202504".toList))) ≠
      bpDepLine device_module_name ++ bpVarLine (module_name ("202504".toList)) := by
  refine ⟨by decide, by decide, by decide⟩

/-- C3 as amended: the membership-guarded mutations are idempotent — the
module-block append of `edit_android_bp` and the whole of
`edit_android_mk` are no-ops on content already holding the next module
name — but the final line-rewriting phase of `edit_android_bp` is a no-op
only on content none of whose lines holds the device-module deps entry or
the sixteen-space current-module entry. -/
theorem bump_edits_idempotence (device cur next c1 c2 c3 : List Char)
    (h1 : isSubstr next c1 = true)
    (h2 : isSubstr next c2 = true)
    (h3 : ∀ line ∈ linesKeepNl c3, isSubstr (bpDepLine device) line = false ∧
      isSubstr (bpVarLine cur) line = false) :
    edit_android_bp_append next c1 = c1 ∧
    edit_android_mk device cur next c2 = none ∧
    edit_android_bp_rewrite device cur next c3 = c3 := by
  refine ⟨by simp [edit_android_bp_append, h1], by simp [edit_android_mk, h2], ?_⟩
  unfold edit_android_bp_rewrite
  rw [map_self_of_mem _ _ (fun line hline => ?_), concatAll_linesKeepNl]
  have hd := (h3 line hline).1
  have hv := (h3 line hline).2
  simp [bpRewriteLine, hd, hv]

/-- Witness for amended C3 on concrete already-bumped contents. -/
theorem bump_edits_idempotence_witness :
    edit_android_bp_append (module_name ("202504".toList))
        (bpVarLine (module_name ("202504".toList))) =
      bpVarLine (module_name ("202504".toList)) ∧
    edit_android_mk device_module_name (module_name ("202404".toList))
        (module_name ("202504".toList)) (mkDepLine (module_name ("202504".toList))) =
      none ∧
    edit_android_bp_rewrite device_module_name (module_name ("202404".toList))
        (module_name ("202504".toList)) ("xyz\n".toList) = ("xyz\n".toList) :=
  bump_edits_idempotence device_module_name (module_name ("202404".toList))
    (module_name ("202504".toList)) (bpVarLine (module_name ("202504".toList)))
    (mkDepLine (module_name ("202504".toList))) ("xyz\n".toList)
    (by decide) (by decide) (by decide)

/-- C4, counterexample: on a content holding the device-module deps entry
and no current-module line, the rewriting phase does not leave all other
lines byte-identical — it inserts an extra current-module entry. -/
theorem edit_android_bp_rewrite_inserts_cex :
    edit_android_bp_rewrite device_module_name (module_name ("202404".toList))
        (module_name ("202504".toList)) (bpDepLine device_module_name) =
      bpDepLine (module_name ("202404".toList)) ++ bpDepLine device_module_name ∧
    bpDepLine (module_name ("202404".toList)) ++ bpDepLine device_module_name ≠
      bpDepLine device_module_name := by
  refine ⟨by decide, by decide⟩

/-- C4 as amended: on content none of whose lines holds the device-module
deps entry, the rewriting phase replaces every line holding the
sixteen-space quoted current module entry by the quoted next module entry
and leaves every other line byte-identical. -/
theorem edit_android_bp_rewrite_swap (device cur next content : List Char)
    (h : ∀ line ∈ linesKeepNl content, isSubstr (bpDepLine device) line = false) :
    edit_android_bp_rewrite device cur next content =
      concatAll ((linesKeepNl content).map (fun line =>
        if isSubstr (bpVarLine cur) line then bpVarLine next else line)) := by
  unfold edit_android_bp_rewrite
  rw [map_congr_of_mem _ _ _ (fun line hline => ?_)]
  simp [bpRewriteLine, h line hline]

/-- Witness for amended C4: one matching line and one unrelated line. -/
theorem edit_android_bp_rewrite_swap_witness :
    edit_android_bp_rewrite device_module_name (module_name ("202404".toList))
        (module_name ("202504".toList))
        (bpVarLine (module_name ("202404".toList)) ++ ("end\n".toList)) =
      concatAll ((linesKeepNl
          (bpVarLine (module_name ("202404".toList)) ++ ("end\n".toList))).map
        (fun line =>
          if isSubstr (bpVarLine (module_name ("202404".toList))) line then
            bpVarLine (module_name ("202504".toList))
          else line)) :=
  edit_android_bp_rewrite_swap device_module_name (module_name ("202404".toList))
    (module_name ("202504".toList))
    (bpVarLine (module_name ("202404".toList)) ++ ("end\n".toList)) (by decide)

/-- C5: `edit_android_mk` on a file already holding the next module name
returns before building any line list: no write happens and the file
content stays byte-identical. -/
theorem edit_android_mk_guard_noop (device cur next content : List Char)
    (h : isSubstr next content = true) :
    edit_android_mk device cur next content = none := by
  simp [edit_android_mk, h]

/-- Witness for C5 on a concrete already-bumped `Android.mk` content. -/
theorem edit_android_mk_guard_noop_witness :
    edit_android_mk device_module_name (module_name ("202404".toList))
        (module_name ("202504".toList))
        (mkDepLine device_module_name ++ mkDepLine (module_name ("202504".toList))) =
      none :=
  edit_android_mk_guard_noop device_module_name (module_name ("202404".toList))
    (module_name ("202504".toList))
    (mkDepLine device_module_name ++ mkDepLine (module_name ("202504".toList)))
    (by decide)

theorem joinSep_cons (sep p : List Char) (ps : List (List Char)) (h : ps ≠ []) :
    joinSep sep (p :: ps) = p ++ sep ++ joinSep sep ps := by
  cases ps with
  | nil => exact absurd rfl h
  | cons q qs => rfl

theorem splitOnFuel_ne_nil (sep text : List Char) (n : Nat) :
    splitOnFuel sep n text ≠ [] := by
  cases n with
  | zero => simp [splitOnFuel]
  | succ m =>
    cases h : splitFirst sep text with
    | none => simp [splitOnFuel, h]
    | some p => obtain ⟨a, b⟩ := p; simp [splitOnFuel, h]

/-- Joining the split with the separator itself restores the text. -/
theorem joinSep_splitOnFuel (sep : List Char) (n : Nat) (text : List Char)
    (hsep : sep ≠ []) (hn : text.length ≤ n) :
    joinSep sep (splitOnFuel sep n text) = text := by
  induction n generalizing text with
  | zero => rfl
  | succ m ih =>
    cases hs : splitFirst sep text with
    | none => simp [splitOnFuel, hs, joinSep]
    | some r =>
      obtain ⟨a, b⟩ := r
      have hdec := splitFirst_eq_some sep text a b hs
      have hslen : 1 ≤ sep.length := by
        cases sep with
        | nil => exact absurd rfl hsep
        | cons u us => simp
      have hblen : b.length ≤ m := by
        have := congrArg List.length hdec
        simp only [List.length_append] at this
        omega
      simp only [splitOnFuel, hs]
      rw [joinSep_cons sep a _ (splitOnFuel_ne_nil sep b m), ih b hblen, ← hdec]

theorem joinSep_splitOnL (sep text : List Char) (hsep : sep ≠ []) :
    joinSep sep (splitOnL sep text) = text :=
  joinSep_splitOnFuel sep text.length text hsep (Nat.le_refl _)

/-- The part before the leftmost match holds no occurrence. -/
theorem countOcc_splitFirst_fst (sep text a b : List Char)
    (h : splitFirst sep text = some (a, b)) : countOcc sep a = 0 := by
  induction text generalizing a b with
  | nil => simp [splitFirst] at h
  | cons c cs ih =>
    by_cases hp : sep.isPrefixOf (c :: cs)
    · simp only [splitFirst, hp, if_true, Option.some.injEq, Prod.mk.injEq] at h
      rw [← h.1, countOcc_nil]
    · simp only [splitFirst, hp, if_false, ite_false] at h
      cases hs : splitFirst sep cs with
      | none => rw [hs] at h; simp at h
      | some p =>
        obtain ⟨a1, b1⟩ := p
        rw [hs] at h
        simp at h
        obtain ⟨ha, _⟩ := h
        have h1 := ih a1 b1 hs
        have hdec := splitFirst_eq_some sep cs a1 b1 hs
        rw [← ha, countOcc_cons]
        have hnp : ¬ sep.isPrefixOf (c :: a1) = true := by
          intro hpre
          apply hp
          refine List.isPrefixOf_iff_prefix.mpr ?_
          have hmid : (c :: a1) <+: (c :: cs) := by
            refine ⟨sep ++ b1, ?_⟩
            rw [List.cons_append, hdec]
            simp [List.append_assoc]
          exact (List.isPrefixOf_iff_prefix.mp hpre).trans hmid
        rw [if_neg hnp, h1]

/-- No piece of the split holds an occurrence of the separator. -/
theorem countOcc_splitOnFuel_pieces (sep : List Char) (n : Nat) (text : List Char)
    (hsep : sep ≠ []) (hn : text.length ≤ n) :
    ∀ p ∈ splitOnFuel sep n text, countOcc sep p = 0 := by
  induction n generalizing text with
  | zero =>
    intro p hp
    have htext : text = [] := List.length_eq_zero.mp (Nat.le_zero.mp hn)
    simp only [splitOnFuel, List.mem_singleton] at hp
    rw [hp, htext, countOcc_nil]
  | succ m ih =>
    intro p hp
    cases hs : splitFirst sep text with
    | none =>
      simp only [splitOnFuel, hs, List.mem_singleton] at hp
      rw [hp]
      exact (splitFirst_eq_none_iff sep text).mp hs
    | some r =>
      obtain ⟨a, b⟩ := r
      simp only [splitOnFuel, hs, List.mem_cons] at hp
      cases hp with
      | inl hpa => rw [hpa]; exact countOcc_splitFirst_fst sep text a b hs
      | inr hpb =>
        have hdec := splitFirst_eq_some sep text a b hs
        have hslen : 1 ≤ sep.length := by
          cases sep with
          | nil => exact absurd rfl hsep
          | cons u us => simp
        have hblen : b.length ≤ m := by
          have := congrArg List.length hdec
          simp only [List.length_append] at this
          omega
        exact ih b hblen p hpb

/-- C6: the next matrix file is the current one with every occurrence of
the current level attribute replaced by the next level attribute: the
current content decomposes as the split pieces joined by the current
attribute, no piece holds the attribute, and the written output is the
same pieces joined by the next attribute. -/
theorem copy_matrix_replaces_level (current_level next_level content : List Char) :
    content =
      joinSep (levelAttr current_level) (splitOnL (levelAttr current_level) content) ∧
    (∀ p ∈ splitOnL (levelAttr current_level) content,
      countOcc (levelAttr current_level) p = 0) ∧
    copy_matrix current_level next_level content =
      joinSep (levelAttr next_level) (splitOnL (levelAttr current_level) content) := by
  have hA : ("level=\"".toList) = 'l' :: ("evel=\"".toList) := rfl
  have hsep : levelAttr current_level ≠ [] := by
    simp [levelAttr, hA]
  exact ⟨(joinSep_splitOnL _ content hsep).symm,
    countOcc_splitOnFuel_pieces _ content.length content hsep (Nat.le_refl _),
    rfl⟩

/-- C8: with the optional platform version omitted, `bump_libvintf`
reports a skip and leaves the three registry files untouched: no write
happens. -/
theorem bump_libvintf_skip (letter level : List Char) (files : RegistryFiles) :
    bump_libvintf none letter level files = .ok (files, true) := rfl

/-- C10: with a platform version supplied, when `Level.h` already holds
the current level line the probe command exits 0 and `bump_libvintf`
performs no edit: the three registry files are returned unchanged and no
skip is reported. -/
theorem bump_libvintf_probe_noop (version letter level : List Char)
    (files : RegistryFiles)
    (h : isSubstr (toUpperL letter ++ (" = ".toList) ++ level) files.level_h = true) :
    bump_libvintf (some version) letter level files = .ok (files, false) := by
  simp only [bump_libvintf, grepLevel, check_call]
  rw [if_pos h]

/-- Witness for C10: `Level.h` already holds the current level line. -/
theorem bump_libvintf_probe_noop_witness :
    bump_libvintf (some ("15".toList)) ("v".toList) ("202404".toList)
      ⟨("a".toList), ("x\n    V = 202404,\ny".toList), ("b".toList)⟩ =
    .ok (⟨("a".toList), ("x\n    V = 202404,\ny".toList), ("b".toList)⟩, false) :=
  bump_libvintf_probe_noop ("15".toList) ("v".toList) ("202404".toList)
    ⟨("a".toList), ("x\n    V = 202404,\ny".toList), ("b".toList)⟩ (by decide)

/-- Helper: once the probe grep is reached, `bump_libvintf` never raises
a `CalledProcessError`: the probe failure is caught and the only failure
left is the anchor exception. -/
theorem bump_libvintf_no_cpe (version letter level : List Char)
    (files : RegistryFiles) (m : Nat) :
    bump_libvintf (some version) letter level files ≠
      .error (BumpError.calledProcessError m) := by
  simp only [bump_libvintf]
  split
  · simp
  · split
    · simp
    · split
      · simp
      · split
        · simp
        · split
          · simp
          · simp

/-- C7, counterexample: a run in which one invoked external command — the
`Level.h` presence-probe grep — exits with a non-zero status, yet the whole
run succeeds: the probe failure is caught inside `bump_libvintf` and turned
into the insert path instead of being propagated. -/
theorem run_probe_failure_not_fatal_cex :
    isOkE (run ⟨("1".toList), ("2".toList), ("v".toList), ("w".toList),
        some ("15".toList)⟩
      ⟨.ok (), .ok [], .ok id, .ok id, .ok id⟩
      ⟨("c".toList), [], ("p\n".toList), ("m\n".toList),
        ("A\n        case Level::UNSPECIFIED:\nB".toList),
        ("A\n    // To add new values:\nB\n        Level::UNSPECIFIED,\nC".toList),
        ("A\n            // Add more levels above this line.\nB".toList)⟩) = true ∧
    isOkE (grepLevel (toUpperL ("v".toList)) ("1".toList)
      ("A\n    // To add new values:\nB\n        Level::UNSPECIFIED,\nC".toList)) =
      false := by
  refine ⟨by decide, by decide⟩

/-- C7 as amended: every non-zero exit status of an invoked external
command aborts the run with the status propagated verbatim and no retry —
except the `Level.h` presence-probe grep of `bump_libvintf`, whose
failure is caught: once the five propagating commands succeed, no
`CalledProcessError` can escape the run, whatever the probe does. -/
theorem run_propagates_external_failures (args : Args) (env : ExtEnv)
    (fs : FileState) :
    (∀ n, env.bump_kernel_exit = .error n →
      run args env fs = .error (BumpError.calledProcessError n)) ∧
    (∀ n, env.bump_kernel_exit = .ok () → env.kernel_configs_out = .error n →
      run args env fs = .error (BumpError.calledProcessError n)) ∧
    (∀ n out, env.bump_kernel_exit = .ok () → env.kernel_configs_out = .ok out →
      env.bpmodify_stem = .error n →
      run args env fs = .error (BumpError.calledProcessError n)) ∧
    (∀ n out f1, env.bump_kernel_exit = .ok () → env.kernel_configs_out = .ok out →
      env.bpmodify_stem = .ok f1 → env.bpmodify_srcs = .error n →
      run args env fs = .error (BumpError.calledProcessError n)) ∧
    (∀ n out f1 f2, env.bump_kernel_exit = .ok () →
      env.kernel_configs_out = .ok out → env.bpmodify_stem = .ok f1 →
      env.bpmodify_srcs = .ok f2 → env.bpmodify_kernel_configs = .error n →
      run args env fs = .error (BumpError.calledProcessError n)) ∧
    (∀ v out f1 f2 f3 m, env.bump_kernel_exit = .ok () →
      env.kernel_configs_out = .ok out → env.bpmodify_stem = .ok f1 →
      env.bpmodify_srcs = .ok f2 → env.bpmodify_kernel_configs = .ok f3 →
      args.platform_version = some v →
      run args env fs ≠ .error (BumpError.calledProcessError m)) := by
  refine ⟨?_, ?_, ?_, ?_, ?_, ?_⟩
  · intro n h
    simp [run, check_call, h]
  · intro n h1 h2
    simp [run, check_call, check_output, h1, h2]
  · intro n out h1 h2 h3
    simp [run, check_call, check_output, h1, h2, h3]
  · intro n out f1 h1 h2 h3 h4
    simp [run, check_call, check_output, h1, h2, h3, h4]
  · intro n out f1 f2 h1 h2 h3 h4 h5
    simp [run, check_call, check_output, h1, h2, h3, h4, h5]
  · intro v out f1 f2 f3 m h1 h2 h3 h4 h5 hv
    simp only [run, check_call, check_output, h1, h2, h3, h4, h5, hv]
    split
    · rename_i e heq
      intro hcontra
      simp only [Except.error.injEq] at hcontra
      rw [hcontra] at heq
      exact absurd heq (bump_libvintf_no_cpe _ _ _ _ _)
    · simp

/-- Witness for amended C7: the first external command exits 7 and the
run aborts with that status. -/
theorem run_propagates_external_failures_witness :
    run ⟨("1".toList), ("2".toList), ("v".toList), ("w".toList), none⟩
      ⟨.error 7, .ok [], .ok id, .ok id, .ok id⟩
      ⟨[], [], [], [], [], [], []⟩ = .error (BumpError.calledProcessError 7) :=
  (run_propagates_external_failures ⟨("1".toList), ("2".toList), ("v".toList),
    ("w".toList), none⟩ ⟨.error 7, .ok [], .ok id, .ok id, .ok id⟩
    ⟨[], [], [], [], [], [], []⟩).1 7 rfl
